import Mathlib

/-!
Verification of the read-only MySQL query gateway (mysql-readonly-mcp).

The definitions below are a shallow embedding of the TypeScript source:
strings are `List Char`, JavaScript `number` row limits are `Int`/`Nat`,
fallible operations return `Except`/`Option`, and the database driver is
an explicit function argument.  Functions keep the names of the source
functions they embed (`enforceQueryLimit`, `truncateText`,
`addLimitToQuery`, `sanitizeMessage`, ...).
-/

set_option maxHeartbeats 1000000
set_option maxRecDepth 20000

namespace MySqlMcp

/-- Strings are modelled as lists of characters (JS strings, by code unit). -/
abbrev Str := List Char

/-- Embed a Lean string literal into the model. -/
def strToL (s : String) : Str := s.data

/-- The backtick character. -/
def btick : Char := Char.ofNat 96

/-- The single-quote character. -/
def squote : Char := Char.ofNat 39

/-- The double-quote character. -/
def dquote : Char := Char.ofNat 34

/-- The backslash character. -/
def bslash : Char := Char.ofNat 92

/-- JavaScript whitespace (the characters matched by `\s` / trimmed by `trim()`
that occur in this development). -/
def isWsChar (c : Char) : Bool :=
  c = ' ' || c = '\t' || c = '\n' || c = '\r' || c = Char.ofNat 11 || c = Char.ofNat 12

/-- JavaScript word characters, the class `\w` = `[A-Za-z0-9_]` used for the
word boundary `\b`. -/
def isWordChar (c : Char) : Bool := c.isAlphanum || c = '_'

/-- `String.prototype.toUpperCase` on the ASCII range. -/
def upperL (s : Str) : Str := s.map Char.toUpper

/-- `String.prototype.trim()`. -/
def jsTrim (s : Str) : Str := ((s.dropWhile isWsChar).reverse.dropWhile isWsChar).reverse

/-- Modelled from the spec: `LIMITS.QUERY_DEFAULT` of the missing `types.ts`
(spec §6: free-form query calls default to 1000 rows; also README). -/
def QUERY_DEFAULT : Nat := 1000

/-- Modelled from the spec: `LIMITS.QUERY_MAX` of the missing `types.ts`
(spec §6: free-form query calls cap at 5000 rows; also README). -/
def QUERY_MAX : Nat := 5000

/-- Modelled from the spec: `LIMITS.PREVIEW_DEFAULT` of the missing `types.ts`
(spec §6: preview-style calls default to 10 rows; also README). -/
def PREVIEW_DEFAULT : Nat := 10

/-- Modelled from the spec: `LIMITS.PREVIEW_MAX` of the missing `types.ts`
(spec §6: preview-style calls cap at 100 rows; also README). -/
def PREVIEW_MAX : Nat := 100

/-- Modelled from the spec: `LIMITS.TEXT_TRUNCATE` of the missing `types.ts`
(spec §6: text fields are truncated beyond 200 characters). -/
def TEXT_TRUNCATE : Nat := 200

/-- `enforceQueryLimit` from `run-query.ts`: validates and enforces the row
limit for custom queries.  An absent (`undefined`/`null`) limit is `none`. -/
def enforceQueryLimit (requestedLimit : Option Int) : Int :=
  match requestedLimit with
  | none => (QUERY_DEFAULT : Int)
  | some l =>
    if l < 1 then (QUERY_DEFAULT : Int)
    else if l > (QUERY_MAX : Int) then (QUERY_MAX : Int)
    else l

/-- `enforceRowLimit` from `preview-data.ts`: validates and enforces the row
limit for preview calls. -/
def enforceRowLimit (requestedLimit : Option Int) : Int :=
  match requestedLimit with
  | none => (PREVIEW_DEFAULT : Int)
  | some l =>
    if l < 1 then (PREVIEW_DEFAULT : Int)
    else if l > (PREVIEW_MAX : Int) then (PREVIEW_MAX : Int)
    else l

/-- A JavaScript value as it appears in a result row (`unknown` in the source):
a string, or one of the non-string shapes that `truncateText` passes through. -/
inductive JSValue where
  | str (s : Str)
  | num (n : Int)
  | boolean (b : Bool)
  | null
  | bin (bytes : List Nat)
deriving DecidableEq

/-- `truncateText` from `preview-data.ts`: truncates string values longer than
`TEXT_TRUNCATE` and appends the ellipsis marker `...`. -/
def truncateText (value : JSValue) : JSValue :=
  match value with
  | .str s =>
    if s.length > TEXT_TRUNCATE then .str (s.take TEXT_TRUNCATE ++ strToL "...")
    else .str s
  | v => v

/-- Whether a `JSValue` is a string (`typeof value === 'string'`). -/
def isStringValue (v : JSValue) : Bool :=
  match v with
  | .str _ => true
  | _ => false

/-- Claim C3 (amended), part of the development: the two limit enforcers clamp
to their range: absent or below-1 input yields the default (1000 resp. 10),
input above the maximum yields the maximum (5000 resp. 100), and in-range
input is returned unchanged; the result is always within [1, max]. -/
theorem enforceLimits_spec (o : Option Int) :
    (1 ≤ enforceQueryLimit o ∧ enforceQueryLimit o ≤ 5000) ∧
    (1 ≤ enforceRowLimit o ∧ enforceRowLimit o ≤ 100) ∧
    (o = none → enforceQueryLimit o = 1000 ∧ enforceRowLimit o = 10) ∧
    (∀ l : Int, o = some l → l < 1 →
      enforceQueryLimit o = 1000 ∧ enforceRowLimit o = 10) ∧
    (∀ l : Int, o = some l → 5000 < l → enforceQueryLimit o = 5000) ∧
    (∀ l : Int, o = some l → 100 < l → enforceRowLimit o = 100) ∧
    (∀ l : Int, o = some l → 1 ≤ l → l ≤ 5000 → enforceQueryLimit o = l) ∧
    (∀ l : Int, o = some l → 1 ≤ l → l ≤ 100 → enforceRowLimit o = l) := by
  cases o with
  | none =>
    simp [enforceQueryLimit, enforceRowLimit, QUERY_DEFAULT, PREVIEW_DEFAULT]
  | some l =>
    simp only [enforceQueryLimit, enforceRowLimit, QUERY_DEFAULT, QUERY_MAX,
      PREVIEW_DEFAULT, PREVIEW_MAX, Option.some.injEq]
    constructor
    · split_ifs <;> omega
    constructor
    · split_ifs <;> omega
    refine ⟨by simp, ?_, ?_, ?_, ?_, ?_⟩ <;> intro x hx <;> cases hx <;>
      intros <;> split_ifs <;> first | rfl | omega

/-- Witness for `enforceLimits_spec`: concrete evaluations discharging each
hypothesis at explicit inputs. -/
theorem enforceLimits_spec_witness :
    enforceQueryLimit (some 7) = 7 ∧ enforceRowLimit (some 7) = 7 ∧
    enforceQueryLimit none = 1000 ∧ enforceRowLimit none = 10 ∧
    enforceQueryLimit (some 0) = 1000 ∧ enforceRowLimit (some 0) = 10 := by
  refine ⟨(enforceLimits_spec (some 7)).2.2.2.2.2.2.1 7 rfl (by decide) (by decide),
    (enforceLimits_spec (some 7)).2.2.2.2.2.2.2 7 rfl (by decide) (by decide),
    ((enforceLimits_spec none).2.2.1 rfl).1,
    ((enforceLimits_spec none).2.2.1 rfl).2,
    ((enforceLimits_spec (some 0)).2.2.2.1 0 rfl (by decide)).1,
    ((enforceLimits_spec (some 0)).2.2.2.1 0 rfl (by decide)).2⟩

/-- Claim C3 as frozen is false: an out-of-range limit above the maximum is
clamped to the maximum (5000 resp. 100), not replaced by the default
(1000 resp. 10). -/
theorem enforceLimits_claim_counterexample :
    enforceQueryLimit (some 6000) = 5000 ∧ (5000 : Int) ≠ 1000 ∧
    enforceRowLimit (some 200) = 100 ∧ (100 : Int) ≠ 10 := by
  refine ⟨by decide, by decide, by decide, by decide⟩

/-- Claim C8: `truncateText` leaves strings of length ≤ 200 and all non-string
values unchanged; a string longer than 200 characters becomes its first 200
characters followed by the ellipsis marker, of length exactly 203. -/
theorem truncateText_spec (v : JSValue) :
    (∀ s : Str, 200 < s.length →
      truncateText (.str s) = .str (s.take 200 ++ strToL "...") ∧
      (s.take 200 ++ strToL "...").length = 203 ∧
      (s.take 200 ++ strToL "...").take 200 = s.take 200 ∧
      strToL "..." <:+ (s.take 200 ++ strToL "...")) ∧
    (∀ s : Str, s.length ≤ 200 → truncateText (.str s) = .str s) ∧
    (isStringValue v = false → truncateText v = v) := by
  refine ⟨?_, ?_, ?_⟩
  · intro s hs
    refine ⟨?_, ?_, ?_, ⟨s.take 200, rfl⟩⟩
    · simp [truncateText, TEXT_TRUNCATE, hs]
    · have h200 : (s.take 200).length = 200 := by
        simp [List.length_take]; omega
      simp [h200, strToL]
    · have h200 : (s.take 200).length = 200 := by
        simp [List.length_take]; omega
      rw [List.take_append_of_le_length (by omega)]
      simp [h200]
  · intro s hs
    simp [truncateText, TEXT_TRUNCATE]
    omega
  · intro hv
    cases v <;> simp_all [truncateText, isStringValue]

/-- Witness for `truncateText_spec`: a 201-character string is truncated to
200 characters plus the marker, and a short string and a number pass through. -/
theorem truncateText_spec_witness :
    200 < (List.replicate 201 'a').length ∧
    truncateText (.str (List.replicate 201 'a')) =
      .str (List.replicate 200 'a' ++ strToL "...") ∧
    truncateText (.str (strToL "hi")) = .str (strToL "hi") ∧
    truncateText (.num 5) = .num 5 := by
  have h : 200 < (List.replicate 201 'a').length := by simp
  refine ⟨h, ?_, ?_, ?_⟩
  · have := ((truncateText_spec (.num 0)).1 (List.replicate 201 'a') h).1
    rw [this]
    simp [List.take_replicate]
  · exact (truncateText_spec (.num 0)).2.1 (strToL "hi") (by simp [strToL])
  · exact (truncateText_spec (.num 5)).2.2 rfl

/-- One row of `INFORMATION_SCHEMA.STATISTICS` as consulted by
`determineRelationType`: an index entry for a (table, column) with its
`NON_UNIQUE` flag. -/
structure IndexEntry where
  tableName : Str
  columnName : Str
  nonUnique : Nat
deriving DecidableEq

/-- The `COUNT(*)` computed by the uniqueness introspection query of
`determineRelationType`: the number of unique-index entries in the catalog
for the given table and column. -/
def uniqueIndexCount (catalog : List IndexEntry) (t c : Str) : Nat :=
  (catalog.filter
    (fun e => e.tableName == t && e.columnName == c && e.nonUnique == 0)).length

/-- The relationship classification of a foreign-key edge. -/
inductive RelationType where
  | oneToOne
  | oneToMany
deriving DecidableEq

/-- `determineRelationType` from `show-relations.ts`.  The introspection query
either fails (`Except.error`, the `catch` branch of the source) or returns the
list of `unique_count` values of its result rows; the source reads
`rows[0].unique_count` when at least one row is present and falls back to
`one-to-many` everywhere else. -/
def determineRelationType (introspection : Except Str (List Nat)) : RelationType :=
  match introspection with
  | .error _ => .oneToMany
  | .ok rows =>
    match rows with
    | [] => .oneToMany
    | uniqueCount :: _ => if uniqueCount > 0 then .oneToOne else .oneToMany

/-- Claim C9: the classifier always returns exactly `one-to-one` or
`one-to-many`; a failed introspection always yields `one-to-many`; a
successful introspection of the catalog yields `one-to-one` iff the source
column carries a unique index entry. -/
theorem determineRelationType_spec (catalog : List IndexEntry) (t c : Str)
    (outcome : Except Str (List Nat)) :
    (determineRelationType outcome = .oneToOne ∨
      determineRelationType outcome = .oneToMany) ∧
    (∀ e : Str, outcome = .error e → determineRelationType outcome = .oneToMany) ∧
    (outcome = .ok [uniqueIndexCount catalog t c] →
      (determineRelationType outcome = .oneToOne ↔
        0 < uniqueIndexCount catalog t c)) := by
  refine ⟨?_, ?_, ?_⟩
  · cases outcome with
    | error e => right; rfl
    | ok rows =>
      cases rows with
      | nil => right; rfl
      | cons u rest =>
        by_cases hu : u > 0
        · left; simp [determineRelationType, hu]
        · right; simp [determineRelationType, hu]
  · intro e he
    subst he; rfl
  · intro ho
    subst ho
    by_cases hu : 0 < uniqueIndexCount catalog t c
    · simp [determineRelationType, hu]
    · simp [determineRelationType, hu]

/-- Witness for `determineRelationType_spec`: a concrete catalog with a unique
index on the source column classifies as `one-to-one`, and a failed
introspection classifies as `one-to-many`. -/
theorem determineRelationType_spec_witness :
    determineRelationType
      (.ok [uniqueIndexCount [⟨strToL "t", strToL "c", 0⟩] (strToL "t") (strToL "c")]) =
      .oneToOne ∧
    determineRelationType (.error (strToL "boom")) = .oneToMany := by
  constructor
  · exact ((determineRelationType_spec [⟨strToL "t", strToL "c", 0⟩]
      (strToL "t") (strToL "c") _).2.2 rfl).mpr (by decide)
  · exact (determineRelationType_spec [] (strToL "t") (strToL "c")
      (.error (strToL "boom"))).2.1 (strToL "boom") rfl

/-- Whether `\s+\d+` matches at the start of `rest` (the tail of the
`\bLIMIT\s+\d+` regex): at least one whitespace character, then a digit. -/
def wsThenDigits (rest : Str) : Bool :=
  match rest with
  | [] => false
  | c :: _ =>
    isWsChar c &&
      (match rest.dropWhile isWsChar with
       | d :: _ => d.isDigit
       | [] => false)

/-- Whether the regex `LIMIT\s+\d+` (case-insensitive) matches at the start of
`s`. -/
def limitMatchAt (s : Str) : Bool :=
  upperL (s.take 5) == strToL "LIMIT" && wsThenDigits (s.drop 5)

/-- Scan for `\bLIMIT\s+\d+` (case-insensitive): `prevWord` records whether
the previous character is a word character, so `!prevWord` is the word
boundary `\b`. -/
def hasLimitClauseAux : Bool → Str → Bool
  | _, [] => false
  | prevWord, c :: rest =>
    (!prevWord && limitMatchAt (c :: rest)) || hasLimitClauseAux (isWordChar c) rest

/-- The test `/\bLIMIT\s+\d+/i.test(query)` from `addLimitToQuery`. -/
def hasLimitClause (s : Str) : Bool := hasLimitClauseAux false s

/-- `ConnectionManager.addLimitToQuery` from `connection-manager.ts`: adds a
`LIMIT` clause to the query unless one is already present or the trimmed
query starts with SHOW/DESCRIBE/EXPLAIN. -/
def addLimitToQuery (query : Str) (limit : Nat) : Str :=
  let normalizedQuery := upperL (jsTrim query)
  if hasLimitClause query then query
  else if (List.isPrefixOf (strToL "SHOW") normalizedQuery
       || List.isPrefixOf (strToL "DESCRIBE") normalizedQuery
       || List.isPrefixOf (strToL "EXPLAIN") normalizedQuery) then query
  else jsTrim query ++ strToL " LIMIT " ++ strToL (Nat.repr limit)

/-- Claim C5 (amended): the query sent to the engine is the *whitespace-trimmed*
query text with ` LIMIT <effectiveLimit + 1>` appended, except that the query
is left completely untouched when (a) `\bLIMIT\s+\d+` already matches it, or
(b) its trimmed text starts, case-insensitively, with SHOW, DESCRIBE or
EXPLAIN. -/
theorem addLimitToQuery_spec (query : Str) (l : Nat) :
    (hasLimitClause query = true → addLimitToQuery query (l + 1) = query) ∧
    (List.isPrefixOf (strToL "SHOW") (upperL (jsTrim query)) = true ∨
     List.isPrefixOf (strToL "DESCRIBE") (upperL (jsTrim query)) = true ∨
     List.isPrefixOf (strToL "EXPLAIN") (upperL (jsTrim query)) = true →
      addLimitToQuery query (l + 1) = query) ∧
    (hasLimitClause query = false →
     List.isPrefixOf (strToL "SHOW") (upperL (jsTrim query)) = false →
     List.isPrefixOf (strToL "DESCRIBE") (upperL (jsTrim query)) = false →
     List.isPrefixOf (strToL "EXPLAIN") (upperL (jsTrim query)) = false →
      addLimitToQuery query (l + 1) =
        jsTrim query ++ strToL " LIMIT " ++ strToL (Nat.repr (l + 1))) := by
  refine ⟨?_, ?_, ?_⟩
  · intro h
    simp [addLimitToQuery, h]
  · intro h
    by_cases hl : hasLimitClause query = true
    · simp [addLimitToQuery, hl]
    · rcases h with h | h | h <;> simp [addLimitToQuery, hl, h]
  · intro h1 h2 h3 h4
    simp [addLimitToQuery, h1, h2, h3, h4]

/-- Witness for `addLimitToQuery_spec`: a plain SELECT without a LIMIT clause
gets ` LIMIT 11` appended to its trimmed text. -/
theorem addLimitToQuery_spec_witness :
    hasLimitClause (strToL "SELECT id FROM t") = false ∧
    addLimitToQuery (strToL "SELECT id FROM t") (10 + 1) =
      jsTrim (strToL "SELECT id FROM t") ++ strToL " LIMIT " ++
        strToL (Nat.repr (10 + 1)) :=
  ⟨by decide,
   (addLimitToQuery_spec (strToL "SELECT id FROM t") 10).2.2
     (by decide) (by decide) (by decide) (by decide)⟩

/-- Claim C5 as frozen is false: for a query with trailing whitespace the code
appends to the *trimmed* text, not to the original text, so the sent query is
not the original query with ` LIMIT 11` appended. -/
theorem addLimitToQuery_claim_counterexample :
    hasLimitClause (strToL "SELECT 1 ") = false ∧
    List.isPrefixOf (strToL "SHOW") (upperL (jsTrim (strToL "SELECT 1 "))) = false ∧
    List.isPrefixOf (strToL "DESCRIBE") (upperL (jsTrim (strToL "SELECT 1 "))) = false ∧
    List.isPrefixOf (strToL "EXPLAIN") (upperL (jsTrim (strToL "SELECT 1 "))) = false ∧
    addLimitToQuery (strToL "SELECT 1 ") 11 = strToL "SELECT 1 LIMIT 11" ∧
    addLimitToQuery (strToL "SELECT 1 ") 11 ≠
      strToL "SELECT 1 " ++ strToL " LIMIT 11" := by
  refine ⟨by decide, by decide, by decide, by decide, by decide, by decide⟩

/-- A result row: an ordered record of column name to value text. -/
abbrev Row := List (Str × Str)

/-- Driver field metadata (`FieldPacket`): a name and a numeric type code
(possibly absent). -/
structure FieldMeta where
  name : Str
  typeCode : Option Nat
deriving DecidableEq

/-- Caller-facing field info. -/
structure FieldInfo where
  name : Str
  typeName : Str
deriving DecidableEq

/-- `ConnectionManager.getFieldTypeName`: maps a MySQL field type code to its
string name, `UNKNOWN` for unmapped codes and `VAR_STRING` (code 253) for an
absent code. -/
def getFieldTypeName (typeNum : Option Nat) : Str :=
  strToL (match typeNum.getD 253 with
  | 0 => "DECIMAL" | 1 => "TINYINT" | 2 => "SMALLINT" | 3 => "INT"
  | 4 => "FLOAT" | 5 => "DOUBLE" | 6 => "NULL" | 7 => "TIMESTAMP"
  | 8 => "BIGINT" | 9 => "MEDIUMINT" | 10 => "DATE" | 11 => "TIME"
  | 12 => "DATETIME" | 13 => "YEAR" | 14 => "NEWDATE" | 15 => "VARCHAR"
  | 16 => "BIT" | 245 => "JSON" | 246 => "NEWDECIMAL" | 247 => "ENUM"
  | 248 => "SET" | 249 => "TINY_BLOB" | 250 => "MEDIUM_BLOB"
  | 251 => "LONG_BLOB" | 252 => "BLOB" | 253 => "VAR_STRING"
  | 254 => "STRING" | 255 => "GEOMETRY" | _ => "UNKNOWN")

/-- The structured result of a successful query (`QueryResult` in the source). -/
structure QueryResult where
  rows : List Row
  fields : List FieldInfo
  rowCount : Nat
  truncated : Bool

/-- `ConnectionManager.executeWithLimit`: sends the query with a `LIMIT` of
`limit + 1` to the engine (the pool's `execute`, modelled as a function from
sent query text to rows and field metadata), detects truncation by comparing
the returned row count to `limit`, and keeps only the first `limit` rows when
truncated. -/
def executeWithLimit (engine : Str → List Row × List FieldMeta)
    (query : Str) (limit : Nat) : QueryResult :=
  let queryWithLimit := addLimitToQuery query (limit + 1)
  let res := engine queryWithLimit
  let rows := res.1
  let truncated : Bool := decide (limit < rows.length)
  let resultRows := if limit < rows.length then rows.take limit else rows
  { rows := resultRows,
    fields := res.2.map (fun f => ⟨f.name, getFieldTypeName f.typeCode⟩),
    rowCount := resultRows.length,
    truncated := truncated }

/-- Claim C2: whenever the engine honours the sent query — returning either
the first `limit + 1` rows of the underlying result set (the injected-LIMIT
path) or the whole underlying result set (the untouched SHOW/DESCRIBE/EXPLAIN
or pre-existing-LIMIT path) — the outcome's `rowCount` equals the number of
returned rows, is at most the effective limit, and `truncated` is true iff
the underlying result set had at least one more row than was returned. -/
theorem executeWithLimit_invariant (engine : Str → List Row × List FieldMeta)
    (query : Str) (limit : Nat) (source : List Row)
    (h : (engine (addLimitToQuery query (limit + 1))).1 = source.take (limit + 1) ∨
         (engine (addLimitToQuery query (limit + 1))).1 = source) :
    (executeWithLimit engine query limit).rowCount =
      (executeWithLimit engine query limit).rows.length ∧
    (executeWithLimit engine query limit).rowCount ≤ limit ∧
    ((executeWithLimit engine query limit).truncated = true ↔
      (executeWithLimit engine query limit).rowCount < source.length) := by
  refine ⟨rfl, ?_, ?_⟩ <;>
    rcases h with h | h <;>
      simp only [executeWithLimit, h] <;>
        by_cases hlt : limit < (source.take (limit + 1)).length ∨ limit < source.length
  all_goals simp only [List.length_take] at *
  all_goals split <;> simp_all [List.length_take] <;> omega

/-- Witness for `executeWithLimit_invariant`: a two-row source with limit 1
yields one row and a set truncation flag. -/
theorem executeWithLimit_invariant_witness :
    ((fun _ : Str => ([[(strToL "id", strToL "1")], [(strToL "id", strToL "2")]],
        ([] : List FieldMeta)))
      (addLimitToQuery (strToL "SELECT id FROM t") (1 + 1))).1 =
      [[(strToL "id", strToL "1")], [(strToL "id", strToL "2")]] ∧
    ((executeWithLimit
        (fun _ : Str => ([[(strToL "id", strToL "1")], [(strToL "id", strToL "2")]],
          ([] : List FieldMeta)))
        (strToL "SELECT id FROM t") 1).rowCount ≤ 1 ∧
      ((executeWithLimit
          (fun _ : Str => ([[(strToL "id", strToL "1")], [(strToL "id", strToL "2")]],
            ([] : List FieldMeta)))
          (strToL "SELECT id FROM t") 1).truncated = true ↔
        (executeWithLimit
          (fun _ : Str => ([[(strToL "id", strToL "1")], [(strToL "id", strToL "2")]],
            ([] : List FieldMeta)))
          (strToL "SELECT id FROM t") 1).rowCount <
          [[(strToL "id", strToL "1")], [(strToL "id", strToL "2")]].length)) :=
  ⟨rfl,
   (executeWithLimit_invariant _ (strToL "SELECT id FROM t") 1
      [[(strToL "id", strToL "1")], [(strToL "id", strToL "2")]] (Or.inr rfl)).2⟩

/-- Modelled from the spec: the forbidden keywords of the missing
`query-validator.ts` (spec §4.1). -/
def FORBIDDEN_KEYWORDS : List Str :=
  [strToL "INSERT", strToL "UPDATE", strToL "DELETE", strToL "DROP",
   strToL "ALTER", strToL "TRUNCATE", strToL "CREATE", strToL "REPLACE",
   strToL "GRANT", strToL "REVOKE", strToL "LOCK", strToL "UNLOCK"]

/-- Modelled from the spec: the allowed leading statement keywords of the
missing `query-validator.ts` (spec §4.1). -/
def ALLOWED_STATEMENTS : List Str :=
  [strToL "SELECT", strToL "SHOW", strToL "DESCRIBE", strToL "EXPLAIN"]

/-- Modelled from the spec: skipping a `/* ... */` block comment — drop
everything up to and including the closing `*/` (an unterminated comment
swallows the rest of the text). -/
def dropBlockComment : Str → Str
  | [] => []
  | '*' :: '/' :: rest => rest
  | _ :: rest => dropBlockComment rest

theorem dropBlockComment_length_le (s : Str) :
    (dropBlockComment s).length ≤ s.length := by
  induction s using dropBlockComment.induct <;> simp [dropBlockComment] <;> omega

/-- Modelled from the spec: normalization of the missing `query-validator.ts`
— strip leading whitespace, `--` line comments and `/* */` block comments
(spec §4.1).  The `fuel` argument only drives structural recursion; each
step consumes at least one character, so `length + 1` fuel always suffices. -/
def stripLeadingF : Nat → Str → Str
  | 0, s => s
  | _ + 1, [] => []
  | f + 1, '-' :: '-' :: rest => stripLeadingF f (rest.dropWhile (· ≠ '\n'))
  | f + 1, '/' :: '*' :: rest => stripLeadingF f (dropBlockComment rest)
  | f + 1, c :: rest => if isWsChar c then stripLeadingF f rest else c :: rest

/-- Strip leading whitespace and leading SQL comments. -/
def stripLeading (s : Str) : Str := stripLeadingF (s.length + 1) s

/-- Modelled from the spec: the full normalization of the missing
`query-validator.ts` — leading whitespace/comments stripped, then surrounding
whitespace trimmed (spec §4.1). -/
def normalizeQuery (query : Str) : Str := jsTrim (stripLeading query)

/-- Fuelled scanner collecting the maximal word-character runs of a string;
`length + 1` fuel always suffices. -/
def wordsOfF : Nat → Str → List Str
  | 0, _ => []
  | _ + 1, [] => []
  | f + 1, c :: rest =>
    if isWordChar c then
      (c :: rest.takeWhile isWordChar) :: wordsOfF f (rest.dropWhile isWordChar)
    else wordsOfF f rest

/-- The maximal word-character runs of a string, in order: the candidate
"standalone whole words" of the `\b...\b` forbidden-keyword scan. -/
def wordsOf (s : Str) : List Str := wordsOfF (s.length + 1) s

theorem wordsOfF_congr (f₁ : Nat) : ∀ (f₂ : Nat) (s : Str),
    s.length < f₁ → s.length < f₂ → wordsOfF f₁ s = wordsOfF f₂ s := by
  induction f₁ with
  | zero => intro f₂ s h1 _; omega
  | succ f ih =>
    intro f₂ s h1 h2
    cases f₂ with
    | zero => omega
    | succ f₂' =>
      cases s with
      | nil => rfl
      | cons c rest =>
        have hdrop := (List.dropWhile_suffix (l := rest) isWordChar).length_le
        simp only [List.length_cons] at h1 h2
        simp only [wordsOfF]
        by_cases hc : isWordChar c = true
        · rw [if_pos hc, if_pos hc]
          congr 1
          exact ih f₂' _ (by omega) (by omega)
        · rw [if_neg hc, if_neg hc]
          exact ih f₂' rest (by omega) (by omega)

theorem wordsOf_nil : wordsOf [] = [] := rfl

theorem wordsOf_cons (c : Char) (rest : Str) :
    wordsOf (c :: rest) =
      if isWordChar c then
        (c :: rest.takeWhile isWordChar) :: wordsOf (rest.dropWhile isWordChar)
      else wordsOf rest := by
  have h1 : wordsOf (c :: rest) =
      if isWordChar c then
        (c :: rest.takeWhile isWordChar) ::
          wordsOfF (rest.length + 1) (rest.dropWhile isWordChar)
      else wordsOfF (rest.length + 1) rest := rfl
  rw [h1]
  by_cases hc : isWordChar c = true
  · rw [if_pos hc, if_pos hc]
    simp only [wordsOf]
    congr 1
    have := (List.dropWhile_suffix (l := rest) isWordChar).length_le
    exact wordsOfF_congr _ _ _ (by omega) (by omega)
  · rw [if_neg hc, if_neg hc]
    rfl

/-- Modelled from the spec: the case-insensitive whole-word forbidden-keyword
scan of the missing `query-validator.ts` (spec §4.1). -/
def containsForbiddenWord (s : Str) : Bool :=
  (wordsOf s).any (fun w => decide (upperL w ∈ FORBIDDEN_KEYWORDS))

/-- The leading statement keyword of a normalized query: its longest
word-character prefix. -/
def leadingWord (s : Str) : Str := s.takeWhile isWordChar

/-- The verdict produced by the validator (`ValidationResult` in the source
tests: `valid`, `queryType`, `error`). -/
structure ValidationVerdict where
  valid : Bool
  queryType : Option Str
  error : Option Str

/-- Modelled from the spec: `validate` of the missing `query-validator.ts`
(spec §4.1) — reject empty/only-comment text, reject a leading keyword
outside SELECT/SHOW/DESCRIBE/EXPLAIN, reject any standalone forbidden
keyword, otherwise accept and report the uppercased statement kind. -/
def validate (query : Str) : ValidationVerdict :=
  let normalized := normalizeQuery query
  if normalized.isEmpty then
    ⟨false, none, some (strToL "Query is empty")⟩
  else if ¬ (upperL (leadingWord normalized) ∈ ALLOWED_STATEMENTS) then
    ⟨false, none, some (strToL "Only read-only statements are allowed")⟩
  else if containsForbiddenWord normalized then
    ⟨false, none, some (strToL "Query contains a forbidden keyword")⟩
  else
    ⟨true, some (upperL (leadingWord normalized)), none⟩

/-- `isReadOnly` of the missing `query-validator.ts` (modelled from the spec):
whether `validate` accepts. -/
def isReadOnly (query : Str) : Bool := (validate query).valid

/-- `w` occurs in `s` as a standalone whole word: a nonempty all-word-character
substring whose neighbours on both sides (when present) are not word
characters. -/
def HasWord (s w : Str) : Prop :=
  ∃ a b, s = a ++ w ++ b ∧ w ≠ [] ∧ (∀ c ∈ w, isWordChar c = true) ∧
    (∀ x, a.getLast? = some x → isWordChar x = false) ∧
    (∀ y, b.head? = some y → isWordChar y = false)

theorem takeWhile_append_eq (p : Char → Bool) (w b : Str)
    (hw : ∀ c ∈ w, p c = true) (hb : ∀ y, b.head? = some y → p y = false) :
    (w ++ b).takeWhile p = w ∧ (w ++ b).dropWhile p = b := by
  induction w with
  | nil =>
    simp only [List.nil_append]
    cases b with
    | nil => simp
    | cons y b' =>
      have := hb y rfl
      simp [List.takeWhile_cons, List.dropWhile_cons, this]
  | cons c w' ih =>
    have hc := hw c (by simp)
    have := ih (fun x hx => hw x (by simp [hx]))
    simp [List.takeWhile_cons, List.dropWhile_cons, hc, this.1, this.2]

theorem dropWhile_append_left (p : Char → Bool) (a l : Str)
    (h : a.dropWhile p ≠ []) :
    (a ++ l).dropWhile p = a.dropWhile p ++ l := by
  induction a with
  | nil => simp at h
  | cons x a' ih =>
    by_cases hx : p x = true
    · simp only [List.dropWhile_cons, hx, if_pos] at h ⊢
      simp only [List.cons_append, List.dropWhile_cons, hx, if_pos]
      exact ih h
    · simp only [List.dropWhile_cons, hx] at h ⊢
      simp [hx]

theorem getLast?_dropWhile (p : Char → Bool) (l : Str)
    (h : l.dropWhile p ≠ []) : (l.dropWhile p).getLast? = l.getLast? := by
  conv_rhs => rw [← List.takeWhile_append_dropWhile (p := p) (l := l)]
  rw [List.getLast?_append_of_ne_nil _ h]

theorem head?_dropWhile_false (p : Char → Bool) (l : Str) (y : Char)
    (h : (l.dropWhile p).head? = some y) : p y = false := by
  have := List.head?_dropWhile_not p l
  rw [h] at this
  simpa using this

/-- Any standalone whole word of `a ++ w ++ b` at this decomposition is
collected by `wordsOf`. -/
theorem mem_wordsOf_of_decomp (n : Nat) :
    ∀ a w b : Str, a.length ≤ n → w ≠ [] → (∀ c ∈ w, isWordChar c = true) →
    (∀ x, a.getLast? = some x → isWordChar x = false) →
    (∀ y, b.head? = some y → isWordChar y = false) →
    w ∈ wordsOf (a ++ w ++ b) := by
  induction n with
  | zero =>
    intro a w b hlen hw hword _ hb
    have ha : a = [] := by cases a <;> simp_all
    subst ha
    cases w with
    | nil => exact absurd rfl hw
    | cons c w' =>
      have hc : isWordChar c = true := hword c (by simp)
      have hdec := takeWhile_append_eq isWordChar w' b
        (fun x hx => hword x (by simp [hx])) hb
      have e : ([] : Str) ++ (c :: w') ++ b = c :: (w' ++ b) := by simp
      rw [e, wordsOf_cons, if_pos hc, hdec.1]
      exact List.mem_cons_self _ _
  | succ n ih =>
    intro a w b hlen hw hword ha hb
    cases a with
    | nil => exact ih [] w b (by simp) hw hword (by simp) hb
    | cons x a' =>
      by_cases hx : isWordChar x = true
      · -- the previous character is a word character, so `a'` must end in a
        -- non-word character and the scan restarts inside `a'`
        have ha' : a' ≠ [] := by
          intro h
          subst h
          exact absurd (ha x rfl) (by simp [hx])
        have hlast : (x :: a').getLast? = a'.getLast? := by
          show ([x] ++ a').getLast? = a'.getLast?
          exact List.getLast?_append_of_ne_nil [x] ha'
        have hz : a'.getLast? = some (a'.getLast ha') :=
          List.getLast?_eq_getLast a' ha'
        have hznw : isWordChar (a'.getLast ha') = false := by
          apply ha
          rw [hlast, hz]
        have hdropne : a'.dropWhile isWordChar ≠ [] := by
          rw [Ne, List.dropWhile_eq_nil_iff]
          intro hall
          have := hall _ (List.mem_of_mem_getLast? hz)
          simp [hznw] at this
        have hw1 : ((a' ++ w) ++ b).dropWhile isWordChar =
            a'.dropWhile isWordChar ++ w ++ b := by
          have h1 : (a' ++ (w ++ b)).dropWhile isWordChar =
              a'.dropWhile isWordChar ++ (w ++ b) :=
            dropWhile_append_left isWordChar a' (w ++ b) hdropne
          simpa [List.append_assoc] using h1
        have hmem : w ∈ wordsOf (a'.dropWhile isWordChar ++ w ++ b) := by
          apply ih (a'.dropWhile isWordChar) w b
          · have h1 := (List.dropWhile_suffix (l := a') isWordChar).length_le
            simp only [List.length_cons] at hlen
            omega
          · exact hw
          · exact hword
          · intro x' hx'
            rw [getLast?_dropWhile _ _ hdropne, hz] at hx'
            cases hx'
            exact hznw
          · exact hb
        have e : (x :: a') ++ w ++ b = x :: ((a' ++ w) ++ b) := by simp
        rw [e, wordsOf_cons, if_pos hx, hw1]
        exact List.mem_cons_of_mem _ hmem
      · -- the previous character is not a word character: peel it off
        have e : (x :: a') ++ w ++ b = x :: ((a' ++ w) ++ b) := by simp
        rw [e, wordsOf_cons, if_neg hx]
        apply ih a' w b
        · simp only [List.length_cons] at hlen; omega
        · exact hw
        · exact hword
        · intro x' hx'
          apply ha
          have ha'ne : a' ≠ [] := by rintro rfl; simp at hx'
          show ([x] ++ a').getLast? = some x'
          rw [List.getLast?_append_of_ne_nil [x] ha'ne, hx']
        · exact hb

/-- Every word collected by `wordsOf` is a standalone whole word. -/
theorem hasWord_of_mem_wordsOf (n : Nat) :
    ∀ s w : Str, s.length ≤ n → w ∈ wordsOf s → HasWord s w := by
  induction n with
  | zero =>
    intro s w hlen hmem
    have : s = [] := by cases s <;> simp_all
    subst this
    rw [wordsOf_nil] at hmem
    simp at hmem
  | succ n ih =>
    intro s w hlen hmem
    cases s with
    | nil =>
      rw [wordsOf_nil] at hmem
      simp at hmem
    | cons c rest =>
      by_cases hc : isWordChar c = true
      · rw [wordsOf_cons, if_pos hc] at hmem
        rcases List.mem_cons.mp hmem with hmem | hmem
        · refine ⟨[], rest.dropWhile isWordChar, ?_, by simp [hmem], ?_, ?_, ?_⟩
          · rw [hmem]
            simp [List.takeWhile_append_dropWhile]
          · intro x hx
            rw [hmem] at hx
            rcases List.mem_cons.mp hx with hx | hx
            · rw [hx]; exact hc
            · exact List.mem_takeWhile_imp hx
          · simp
          · intro y hy
            exact head?_dropWhile_false _ _ _ hy
        · obtain ⟨a', b', hsplit, hwne, hword, ha', hb'⟩ :=
            ih (rest.dropWhile isWordChar) w
              (by
                have hr := (List.dropWhile_suffix (l := rest) isWordChar).length_le
                simp only [List.length_cons] at hlen
                omega) hmem
          have ha'ne : a' ≠ [] := by
            rintro rfl
            simp only [List.nil_append] at hsplit
            cases w with
            | nil => exact hwne rfl
            | cons wc w' =>
              have hhead : (rest.dropWhile isWordChar).head? = some wc := by
                rw [hsplit]; simp
              have h1 := head?_dropWhile_false isWordChar rest wc hhead
              have h2 := hword wc (by simp)
              simp [h2] at h1
          refine ⟨c :: (rest.takeWhile isWordChar ++ a'), b', ?_, hwne, hword, ?_, hb'⟩
          · have hrest : rest =
                rest.takeWhile isWordChar ++ rest.dropWhile isWordChar :=
              (List.takeWhile_append_dropWhile _ _).symm
            calc c :: rest
                = c :: (rest.takeWhile isWordChar ++ (a' ++ w ++ b')) := by
                  conv_lhs => rw [hrest, hsplit]
              _ = (c :: (rest.takeWhile isWordChar ++ a')) ++ w ++ b' := by simp
          · intro x hx
            apply ha'
            have hgl : (c :: (rest.takeWhile isWordChar ++ a')).getLast? =
                a'.getLast? := by
              show ((c :: rest.takeWhile isWordChar) ++ a').getLast? = a'.getLast?
              exact List.getLast?_append_of_ne_nil _ ha'ne
            rw [← hgl]
            exact hx
      · rw [wordsOf_cons, if_neg hc] at hmem
        obtain ⟨a', b', hsplit, hwne, hword, ha', hb'⟩ :=
          ih rest w (by simp only [List.length_cons] at hlen; omega) hmem
        refine ⟨c :: a', b', by simp [hsplit], hwne, hword, ?_, hb'⟩
        intro x hx
        cases ha'' : a' with
        | nil =>
          subst ha''
          have hxc : c = x := by simpa using hx
          rw [← hxc]
          simpa using hc
        | cons y t =>
          apply ha'
          have hne : a' ≠ [] := by simp [ha'']
          have hgl : (c :: a').getLast? = a'.getLast? := by
            show ([c] ++ a').getLast? = a'.getLast?
            exact List.getLast?_append_of_ne_nil [c] hne
          rw [← hgl]
          exact hx

/-- `wordsOf` collects exactly the standalone whole words. -/
theorem mem_wordsOf_iff (s w : Str) : w ∈ wordsOf s ↔ HasWord s w := by
  constructor
  · exact hasWord_of_mem_wordsOf s.length s w le_rfl
  · rintro ⟨a, b, rfl, hw, hword, ha, hb⟩
    exact mem_wordsOf_of_decomp a.length a w b le_rfl hw hword ha hb

/-- The forbidden-keyword scan fires exactly on standalone, case-insensitive
whole-word occurrences. -/
theorem containsForbiddenWord_iff (s : Str) :
    containsForbiddenWord s = true ↔
      ∃ w, HasWord s w ∧ upperL w ∈ FORBIDDEN_KEYWORDS := by
  rw [containsForbiddenWord, List.any_eq_true]
  constructor
  · rintro ⟨w, hmem, hdec⟩
    exact ⟨w, (mem_wordsOf_iff s w).mp hmem, of_decide_eq_true hdec⟩
  · rintro ⟨w, hword, hkw⟩
    exact ⟨w, (mem_wordsOf_iff s w).mpr hword, decide_eq_true hkw⟩

/-- Claim C1: `validate` accepts a query iff, after stripping surrounding
whitespace and leading SQL comments, the leading keyword is one of
SELECT/SHOW/DESCRIBE/EXPLAIN (case-insensitively) and the normalized text
contains no forbidden keyword as a standalone whole word; on acceptance the
uppercased recognized kind is reported; empty or only-comment/whitespace
text (empty normalization) is rejected. -/
theorem validate_spec (query : Str) :
    ((validate query).valid = true ↔
      (upperL (leadingWord (normalizeQuery query)) ∈ ALLOWED_STATEMENTS ∧
        ¬ ∃ w, HasWord (normalizeQuery query) w ∧
          upperL w ∈ FORBIDDEN_KEYWORDS)) ∧
    ((validate query).valid = true →
      (validate query).queryType =
        some (upperL (leadingWord (normalizeQuery query)))) ∧
    (normalizeQuery query = [] → (validate query).valid = false) := by
  refine ⟨?_, ?_, ?_⟩
  · simp only [validate]
    split_ifs with h1 h2 h3
    · constructor
      · intro h; simp at h
      · rintro ⟨hallow, -⟩
        rw [List.isEmpty_iff] at h1
        rw [h1] at hallow
        exact absurd hallow (by decide)
    · constructor
      · intro h; simp at h
      · rintro ⟨-, hno⟩
        exact absurd ((containsForbiddenWord_iff _).mp h3) hno
    · constructor
      · intro _
        refine ⟨h2, ?_⟩
        intro hex
        exact h3 ((containsForbiddenWord_iff _).mpr hex)
      · intro _; rfl
    · constructor
      · intro h; simp at h
      · rintro ⟨h, -⟩; exact absurd h h2
  · simp only [validate]
    split_ifs with h1 h2 h3
    · intro h; simp at h
    · intro h; simp at h
    · intro _; rfl
    · intro h; simp at h
  · intro hemp
    simp only [validate]
    have hie : (normalizeQuery query).isEmpty = true := by simp [hemp]
    rw [if_pos hie]

/-- Witness for `validate_spec`: a concrete SELECT over an identifier that
merely contains a forbidden keyword as a substring is accepted with kind
SELECT, and the kind is reported uppercased. -/
theorem validate_spec_witness :
    (validate (strToL "select * from updated_records")).valid = true ∧
    (validate (strToL "select * from updated_records")).queryType =
      some (upperL (leadingWord (normalizeQuery
        (strToL "select * from updated_records")))) := by
  have h : (validate (strToL "select * from updated_records")).valid = true := by
    decide
  exact ⟨h, (validate_spec (strToL "select * from updated_records")).2.1 h⟩

/-- The gateway error kinds reachable in this model of `executeQuery`. -/
inductive GatewayError where
  | validationRejected (reason : Str)
  | executionFailed (message : Str)
deriving DecidableEq

/-- JavaScript `x || y` on an optional string: an absent or empty (falsy)
string falls back to the default. -/
def orElseNonEmpty (o : Option Str) (d : Str) : Str :=
  match o with
  | some s => if s.isEmpty then d else s
  | none => d

/-- The observable outcome of one `executeQuery` call, recording whether the
connection pool was touched. -/
structure ExecOutcome where
  poolAcquired : Bool
  result : Except GatewayError QueryResult

/-- `ConnectionManager.executeQuery` from `connection-manager.ts`: validate
the query first and throw the verdict's error before any pool access;
otherwise resolve the effective limit (`limit ?? LIMITS.QUERY_DEFAULT`),
get the pool and run `executeWithLimit`.  The 30-second wall-clock timeout
race is not modelled (real time), and the engine is modelled as always
succeeding — neither affects the pre-pool rejection path. -/
def executeQuery (engine : Str → List Row × List FieldMeta)
    (query : Str) (limit : Option Nat) : ExecOutcome :=
  let validation := validate query
  if validation.valid then
    let effectiveLimit := limit.getD QUERY_DEFAULT
    { poolAcquired := true,
      result := .ok (executeWithLimit engine query effectiveLimit) }
  else
    { poolAcquired := false,
      result := .error (.validationRejected
        (orElseNonEmpty validation.error (strToL "Invalid query"))) }

/-- Claim C7: a query rejected by the validator makes `executeQuery` fail
immediately with the verdict's rejection reason and without acquiring a
connection from the pool. -/
theorem executeQuery_rejects_before_pool
    (engine : Str → List Row × List FieldMeta) (query : Str)
    (limit : Option Nat) (h : (validate query).valid = false) :
    (executeQuery engine query limit).poolAcquired = false ∧
    (executeQuery engine query limit).result =
      .error (.validationRejected
        (orElseNonEmpty (validate query).error (strToL "Invalid query"))) := by
  simp only [executeQuery]
  rw [if_neg (by simp [h])]
  exact ⟨rfl, rfl⟩

/-- Witness for `executeQuery_rejects_before_pool`: a DROP statement is
rejected without pool interaction. -/
theorem executeQuery_rejects_before_pool_witness :
    (validate (strToL "DROP TABLE t")).valid = false ∧
    (executeQuery (fun _ => ([], [])) (strToL "DROP TABLE t")
      none).poolAcquired = false :=
  ⟨by decide,
   (executeQuery_rejects_before_pool (fun _ => ([], [])) (strToL "DROP TABLE t")
      none (by decide)).1⟩

/-- `escapeSqlIdentifier` from `preview-data.ts`: removes backtick, single
quote, double quote, backslash and semicolon from an identifier
(`replace(/[`'"\\;]/g, '')`). -/
def escapeSqlIdentifier (identifier : Str) : Str :=
  identifier.filter (fun c =>
    !(c = btick || c = squote || c = dquote || c = bslash || c = ';'))

/-- `buildColumnList` from `preview-data.ts`: `*` when no columns are
requested, otherwise the escaped column names wrapped in backticks and
joined with `, `. -/
def buildColumnList (columns : Option (List Str)) : Str :=
  match columns with
  | none => strToL "*"
  | some cols =>
    if cols.isEmpty then strToL "*"
    else List.intercalate (strToL ", ")
      (cols.map (fun col => btick :: (escapeSqlIdentifier col ++ [btick])))

/-- `sanitizeWhereClause` from `preview-data.ts`: `null` for an absent or
blank clause, otherwise the trimmed clause with all semicolons removed. -/
def sanitizeWhereClause (whereClause : Option Str) : Option Str :=
  match whereClause with
  | none => none
  | some w =>
    let trimmed := jsTrim w
    if trimmed.isEmpty then none
    else some (trimmed.filter (fun c => !(c = ';')))

/-- The input record of the `preview_data` tool (`PreviewDataInput`). -/
structure PreviewDataInput where
  table : Str
  columns : Option (List Str)
  limit : Option Int
  whereClause : Option Str

/-- The SQL text that `previewData` builds and submits to `executeQuery`:
`SELECT <columns> FROM `<table>`` plus the optional sanitized WHERE clause,
always ending in ` LIMIT <enforced preview limit>`. -/
def buildPreviewQuery (input : PreviewDataInput) : Str :=
  let limit := enforceRowLimit input.limit
  let columnList := buildColumnList input.columns
  let whereClause := sanitizeWhereClause input.whereClause
  let q1 := strToL "SELECT " ++ columnList ++ strToL " FROM " ++
    (btick :: (escapeSqlIdentifier input.table ++ [btick]))
  let q2 := match whereClause with
    | some wc => q1 ++ strToL " WHERE " ++ wc
    | none => q1
  q2 ++ strToL " LIMIT " ++ strToL (toString limit)

/-- Claim C10: identifier escaping strips backtick, quotes, backslash and
semicolon from the table name and every requested column name; the sanitized
WHERE clause contains no semicolon; and the built preview query always ends
with ` LIMIT <enforced preview limit>`. -/
theorem buildPreviewQuery_spec (input : PreviewDataInput) :
    ((escapeSqlIdentifier input.table).all (fun c =>
      !(c = btick || c = squote || c = dquote || c = bslash || c = ';')) = true) ∧
    (∀ col ∈ input.columns.getD [], (escapeSqlIdentifier col).all (fun c =>
      !(c = btick || c = squote || c = dquote || c = bslash || c = ';')) = true) ∧
    (∀ wc, sanitizeWhereClause input.whereClause = some wc → ';' ∉ wc) ∧
    (∃ p, buildPreviewQuery input =
      p ++ strToL " LIMIT " ++ strToL (toString (enforceRowLimit input.limit))) := by
  refine ⟨?_, ?_, ?_, ?_⟩
  · rw [List.all_eq_true]
    intro c hc
    exact (List.mem_filter.mp hc).2
  · intro col _
    rw [List.all_eq_true]
    intro c hc
    exact (List.mem_filter.mp hc).2
  · intro wc hwc
    cases hw : input.whereClause with
    | none => simp [sanitizeWhereClause, hw] at hwc
    | some w =>
      simp only [sanitizeWhereClause, hw] at hwc
      split_ifs at hwc with hemp
      intro hmem
      rw [← Option.some.inj hwc] at hmem
      have := (List.mem_filter.mp hmem).2
      simp at this
  · simp only [buildPreviewQuery]
    cases hw : sanitizeWhereClause input.whereClause with
    | none =>
      exact ⟨strToL "SELECT " ++ buildColumnList input.columns ++
        strToL " FROM " ++
        (btick :: (escapeSqlIdentifier input.table ++ [btick])), rfl⟩
    | some wc =>
      exact ⟨strToL "SELECT " ++ buildColumnList input.columns ++
        strToL " FROM " ++
        (btick :: (escapeSqlIdentifier input.table ++ [btick])) ++
        strToL " WHERE " ++ wc, rfl⟩

/-- Witness for `buildPreviewQuery_spec`: a concrete input with a column
list and WHERE clause. -/
theorem buildPreviewQuery_spec_witness :
    (strToL "us;er" ∈ (Option.some [strToL "id", strToL "us;er"]).getD [] ∧
      (escapeSqlIdentifier (strToL "us;er")).all (fun c =>
        !(c = btick || c = squote || c = dquote || c = bslash || c = ';')) = true) ∧
    (sanitizeWhereClause (some (strToL "a = 1; DROP x")) =
      some (strToL "a = 1 DROP x") ∧
      ';' ∉ strToL "a = 1 DROP x") := by
  constructor
  · refine ⟨by decide, ?_⟩
    exact (buildPreviewQuery_spec
      ⟨strToL "t", some [strToL "id", strToL "us;er"], none,
        some (strToL "a = 1; DROP x")⟩).2.1 (strToL "us;er") (by decide)
  · refine ⟨by decide, ?_⟩
    exact (buildPreviewQuery_spec
      ⟨strToL "t", some [strToL "id", strToL "us;er"], none,
        some (strToL "a = 1; DROP x")⟩).2.2.1 (strToL "a = 1 DROP x") (by decide)

/-- The fixed redaction marker of `sanitizeMessage`. -/
def REDACTED : Str := strToL "[REDACTED]"

/-- The value class `[^'"\s]` of the credential patterns. -/
def isValueChar (c : Char) : Bool := !(c = squote || c = dquote || isWsChar c)

/-- A single or double quote (`['"]`). -/
def isQuoteChar (c : Char) : Bool := c = squote || c = dquote

/-- Case-insensitive prefix test (the `i` flag). -/
def prefixCI (pre s : Str) : Bool := upperL (s.take pre.length) == upperL pre

/-- Length of the match of the regex `<kw>[=:]\s*['"]?[^'"\s]+['"]?`
(case-insensitive) at the head of `s`, if any.  JS backtracking: the
optional opening quote is consumed only when at least one value character
follows it (a value character is never a quote, so the fallback without the
quote also fails); the value run is greedy; the optional closing quote is
taken when present. -/
def kwMatchLen (kw : Str) (s : Str) : Option Nat :=
  if prefixCI kw s then
    match s.drop kw.length with
    | [] => none
    | c :: r1 =>
      if c = '=' || c = ':' then
        let ws := r1.takeWhile isWsChar
        let r2 := r1.dropWhile isWsChar
        match r2 with
        | [] => none
        | q :: r3 =>
          if isQuoteChar q then
            let v := r3.takeWhile isValueChar
            if v.isEmpty then none
            else
              let close : Nat := match r3.drop v.length with
                | q2 :: _ => if isQuoteChar q2 then 1 else 0
                | [] => 0
              some (kw.length + 1 + ws.length + 1 + v.length + close)
          else
            let v := r2.takeWhile isValueChar
            if v.isEmpty then none
            else
              let close : Nat := match r2.drop v.length with
                | q2 :: _ => if isQuoteChar q2 then 1 else 0
                | [] => 0
              some (kw.length + 1 + ws.length + v.length + close)
      else none
  else none

/-- The host class `[a-zA-Z0-9.-]` of the connection-URL pattern. -/
def isHostChar (c : Char) : Bool := c.isAlphanum || c = '.' || c = '-'

/-- Length of the match of `mysql:\/\/[^:]+:.+@[a-zA-Z0-9.-]+`
(case-insensitive) at the head of `s`, if any.  `[^:]+` is greedy up to the
first colon; `.` does not match a newline, so `.+@<host>` is found inside
the run up to the first newline after the colon, and greediness picks the
last `@` that is followed by a host character. -/
def mysqlMatchLen (s : Str) : Option Nat :=
  if prefixCI (strToL "mysql://") s then
    let rest := s.drop 8
    let u := rest.takeWhile (fun c => !(c = ':'))
    if u.isEmpty then none
    else
      match rest.drop u.length with
      | [] => none
      | _ :: r2 =>
        let run := r2.takeWhile (fun c => !(c = '\n'))
        let js := (List.range run.length).filter (fun j =>
          decide (1 ≤ j) &&
          (match run.drop j with
           | a :: h :: _ => a = '@' && isHostChar h
           | _ => false))
        match js.getLast? with
        | none => none
        | some j =>
          let hostLen := ((run.drop (j + 1)).takeWhile isHostChar).length
          some (8 + u.length + 1 + j + 1 + hostLen)
  else none

/-- `String.prototype.replace` with a global regex, replacing every leftmost
non-overlapping match by the redaction marker: scan left to right, and on a
match of length `n + 1` continue after it.  The fuel only drives structural
recursion; every step consumes at least one character, so `length + 1` fuel
always suffices (a reported match length of `0` is treated as no match; the
matchers above never report `0`). -/
def replaceScanF : Nat → (Str → Option Nat) → Str → Str
  | 0, _, s => s
  | _ + 1, _, [] => []
  | f + 1, m, c :: rest =>
    match m (c :: rest) with
    | some (n + 1) => REDACTED ++ replaceScanF f m (rest.drop n)
    | _ => c :: replaceScanF f m rest

/-- Replace every match of `m` in `s` by the redaction marker. -/
def replaceScan (m : Str → Option Nat) (s : Str) : Str :=
  replaceScanF (s.length + 1) m s

/-- The `SENSITIVE_PATTERNS` list of `connection-manager.ts`, in order. -/
def SENSITIVE_MATCHERS : List (Str → Option Nat) :=
  [kwMatchLen (strToL "password"), kwMatchLen (strToL "pwd"),
   kwMatchLen (strToL "secret"), kwMatchLen (strToL "token"),
   kwMatchLen (strToL "key"), mysqlMatchLen]

/-- `sanitizeMessage` from `connection-manager.ts`: apply each sensitive
pattern in order, replacing matches with `[REDACTED]`. -/
def sanitizeMessage (message : Str) : Str :=
  SENSITIVE_MATCHERS.foldl (fun sanitized m => replaceScan m sanitized) message

/-- `DatabaseConfig` from `types.ts` as used by `connection-manager.ts`. -/
structure DatabaseConfig where
  name : Str
  host : Str
  port : Nat
  user : Str
  password : Str
  database : Str

/-- `createConnectionErrorMessage` from `connection-manager.ts`: the safe
details (`name@host:port/database` — never the password) followed by the
sanitized driver error. -/
def createConnectionErrorMessage (config : DatabaseConfig)
    (errorMessage : Str) : Str :=
  strToL "Database connection failed: " ++
    (config.name ++ strToL "@" ++ config.host ++ strToL ":" ++
      strToL (Nat.repr config.port) ++ strToL "/" ++ config.database) ++
    strToL " - " ++ sanitizeMessage errorMessage

/-- Claim C6 (amended): the connection error message contains the non-secret
config fields (name, host, port, database), and is independent of the
configured password (the password field is never interpolated); the driver
error text is passed through the pattern-based sanitizer, so a password
appearing there outside a credential-shaped pattern is not guaranteed to be
removed. -/
theorem createConnectionErrorMessage_spec (config : DatabaseConfig)
    (err : Str) (p : Str) :
    (config.name <:+: createConnectionErrorMessage config err) ∧
    (config.host <:+: createConnectionErrorMessage config err) ∧
    (strToL (Nat.repr config.port) <:+: createConnectionErrorMessage config err) ∧
    (config.database <:+: createConnectionErrorMessage config err) ∧
    createConnectionErrorMessage { config with password := p } err =
      createConnectionErrorMessage config err ∧
    createConnectionErrorMessage config err =
      strToL "Database connection failed: " ++
        (config.name ++ strToL "@" ++ config.host ++ strToL ":" ++
          strToL (Nat.repr config.port) ++ strToL "/" ++ config.database) ++
        strToL " - " ++ sanitizeMessage err := by
  refine ⟨?_, ?_, ?_, ?_, rfl, rfl⟩
  · refine ⟨strToL "Database connection failed: ",
      strToL "@" ++ config.host ++ strToL ":" ++ strToL (Nat.repr config.port) ++
        strToL "/" ++ config.database ++ strToL " - " ++ sanitizeMessage err, ?_⟩
    simp [createConnectionErrorMessage]
  · refine ⟨strToL "Database connection failed: " ++ config.name ++ strToL "@",
      strToL ":" ++ strToL (Nat.repr config.port) ++
        strToL "/" ++ config.database ++ strToL " - " ++ sanitizeMessage err, ?_⟩
    simp [createConnectionErrorMessage]
  · refine ⟨strToL "Database connection failed: " ++ config.name ++ strToL "@" ++
      config.host ++ strToL ":",
      strToL "/" ++ config.database ++ strToL " - " ++ sanitizeMessage err, ?_⟩
    simp [createConnectionErrorMessage]
  · refine ⟨strToL "Database connection failed: " ++ config.name ++ strToL "@" ++
      config.host ++ strToL ":" ++ strToL (Nat.repr config.port) ++ strToL "/",
      strToL " - " ++ sanitizeMessage err, ?_⟩
    simp [createConnectionErrorMessage]

/-- Claim C6 as frozen is false: with password `secret123` and a driver error
whose text contains the bare password outside any credential-shaped pattern,
the message does contain the substring `secret123` (while still containing
`db1` and never interpolating the password field itself). -/
theorem createConnectionErrorMessage_claim_counterexample :
    (⟨strToL "crm", strToL "db1", 3306, strToL "root", strToL "secret123",
      strToL "app"⟩ : DatabaseConfig).password = strToL "secret123" ∧
    sanitizeMessage (strToL "oops secret123") = strToL "oops secret123" ∧
    (strToL "secret123" <:+:
      createConnectionErrorMessage
        ⟨strToL "crm", strToL "db1", 3306, strToL "root", strToL "secret123",
          strToL "app"⟩ (strToL "oops secret123")) ∧
    (strToL "db1" <:+:
      createConnectionErrorMessage
        ⟨strToL "crm", strToL "db1", 3306, strToL "root", strToL "secret123",
          strToL "app"⟩ (strToL "oops secret123")) := by
  refine ⟨rfl, by decide, ?_, ?_⟩ <;> decide

theorem takeWhile_nonempty_iff (p : Char → Bool) (l : Str) :
    (l.takeWhile p).isEmpty = false ↔ ∃ e l', l = e :: l' ∧ p e = true := by
  cases l with
  | nil => simp
  | cons e l' =>
    by_cases he : p e = true <;> simp [List.takeWhile_cons, he]

theorem dropWhile_append_all (p : Char → Bool) (a l : Str)
    (h : ∀ x ∈ a, p x = true) : (a ++ l).dropWhile p = l.dropWhile p := by
  induction a with
  | nil => rfl
  | cons x a' ih =>
    have hx := h x (by simp)
    simp only [List.cons_append, List.dropWhile_cons, hx, if_pos]
    exact ih (fun y hy => h y (by simp [hy]))

theorem suffix_append_split {t a b : Str} (h : t <:+ a ++ b) :
    t <:+ b ∨ ∃ r, r <:+ a ∧ r ≠ [] ∧ t = r ++ b := by
  induction a with
  | nil => exact Or.inl (by simpa using h)
  | cons x a' ih =>
    rw [List.cons_append, List.suffix_cons_iff] at h
    rcases h with h | h
    · exact Or.inr ⟨x :: a', List.suffix_refl _, by simp, by simpa using h⟩
    · rcases ih h with h | ⟨r, hr, hne, rfl⟩
      · exact Or.inl h
      · exact Or.inr ⟨r, hr.trans (List.suffix_cons x a'), hne, rfl⟩

theorem prefixCI_iff (kw s : Str) :
    prefixCI kw s = true ↔ upperL (s.take kw.length) = upperL kw := by
  rw [prefixCI, beq_iff_eq]

/-- The match condition of the regex `<kw>[=:]\s*['"]?[^'"\s]+['"]?` at the
head of a string, as a proposition: `kwMatchLen` succeeds exactly here. -/
def KwMatches (kw s : Str) : Prop :=
  prefixCI kw s = true ∧
  ∃ c r1, s.drop kw.length = c :: r1 ∧ (c = '=' ∨ c = ':') ∧
    ∃ q r3, r1.dropWhile isWsChar = q :: r3 ∧
      (isQuoteChar q = false ∨ ∃ e r4, r3 = e :: r4 ∧ isValueChar e = true)

theorem kwMatchLen_none_iff (kw s : Str) :
    kwMatchLen kw s = none ↔ ¬ KwMatches kw s := by
  rw [kwMatchLen, KwMatches]
  by_cases hpre : prefixCI kw s = true
  · rw [if_pos hpre]
    simp only [hpre, true_and]
    cases hdrop : s.drop kw.length with
    | nil =>
      dsimp only
      constructor
      · rintro - ⟨c, r1, hcr, -⟩
        cases hcr
      · intro _
        rfl
    | cons c r1 =>
      dsimp only
      by_cases hc : (c = '=' || c = ':') = true
      · rw [if_pos hc]
        cases hdw : r1.dropWhile isWsChar with
        | nil =>
          dsimp only
          constructor
          · rintro - ⟨c', r1', hcr, -, q, r3, hq, -⟩
            obtain ⟨rfl, rfl⟩ := (List.cons.injEq c r1 c' r1').mp hcr
            rw [hdw] at hq
            cases hq
          · intro _
            rfl
        | cons q r3 =>
          dsimp only
          have hqws : isWsChar q = false := by
            have := List.head?_dropWhile_not isWsChar r1
            rw [hdw] at this
            simpa using this
          by_cases hq : isQuoteChar q = true
          · rw [if_pos hq]
            by_cases hv : (r3.takeWhile isValueChar).isEmpty = true
            · rw [if_pos hv]
              constructor
              · rintro - ⟨c', r1', hcr, -, q', r3', hq', hd⟩
                obtain ⟨rfl, rfl⟩ := (List.cons.injEq c r1 c' r1').mp hcr
                rw [hdw] at hq'
                obtain ⟨rfl, rfl⟩ := (List.cons.injEq q r3 q' r3').mp hq'
                rcases hd with hd | ⟨e, r4, rfl, he⟩
                · rw [hq] at hd; cases hd
                · simp [List.takeWhile_cons, he] at hv
              · intro _
                rfl
            · rw [if_neg hv]
              refine iff_of_false (by simp) (not_not.mpr ?_)
              obtain ⟨e, l', rfl, he⟩ :=
                (takeWhile_nonempty_iff isValueChar r3).mp (by simpa using hv)
              exact ⟨c, r1, rfl, by simpa using hc, q, e :: l', hdw,
                Or.inr ⟨e, l', rfl, he⟩⟩
          · rw [if_neg hq]
            have hq' : isQuoteChar q = false := by simpa using hq
            have h1 : q ≠ squote ∧ q ≠ dquote := by
              constructor <;> intro hcon <;> apply hq <;>
                simp [isQuoteChar, hcon]
            have hqv : isValueChar q = true := by
              simp [isValueChar, h1.1, h1.2, hqws]
            have hvne : ((q :: r3).takeWhile isValueChar).isEmpty = false := by
              rw [takeWhile_nonempty_iff]
              exact ⟨q, r3, rfl, hqv⟩
            rw [if_neg (by simp [hvne])]
            refine iff_of_false (by simp) (not_not.mpr ?_)
            exact ⟨c, r1, rfl, by simpa using hc, q, r3, hdw, Or.inl hq'⟩
      · rw [if_neg hc]
        constructor
        · rintro - ⟨c', r1', hcr, hor, -⟩
          obtain ⟨rfl, rfl⟩ := (List.cons.injEq c r1 c' r1').mp hcr
          rcases hor with rfl | rfl <;> simp at hc
        · intro _
          rfl
  · rw [if_neg hpre]
    refine iff_of_true rfl ?_
    rintro ⟨h, -⟩
    exact hpre h

theorem kwMatchLen_none_of_prefix_false (kw s : Str)
    (h : prefixCI kw s = false) : kwMatchLen kw s = none := by
  rw [kwMatchLen_none_iff]
  rintro ⟨hp, -⟩
  rw [hp] at h
  cases h

theorem isValueChar_spec (h : Char) (hv : isValueChar h = true) :
    isWsChar h = false ∧ isQuoteChar h = false := by
  rw [isValueChar] at hv
  simp only [Bool.not_eq_true', Bool.or_eq_false_iff, decide_eq_false_iff_not] at hv
  refine ⟨hv.2, ?_⟩
  simp [isQuoteChar, hv.1.1, hv.1.2]

theorem prefixCI_le_length (kw p u : Str)
    (hkw : ∀ c ∈ kw, Char.toUpper c ≠ '[')
    (h : prefixCI kw (p ++ '[' :: u) = true) : kw.length ≤ p.length := by
  by_contra hlt
  push_neg at hlt
  rw [prefixCI_iff] at h
  have h1 : (upperL ((p ++ '[' :: u).take kw.length))[p.length]? =
      (upperL kw)[p.length]? := by rw [h]
  rw [upperL, upperL, List.getElem?_map, List.getElem?_map,
    List.getElem?_take, if_pos hlt, List.getElem?_append_right le_rfl] at h1
  simp only [Nat.sub_self] at h1
  rw [List.getElem?_eq_getElem (l := kw) hlt] at h1
  simp only [List.getElem?_cons_zero, Option.map_some'] at h1
  exact hkw kw[p.length] (List.getElem_mem hlt) (by
    have := Option.some.inj h1
    rw [← this]
    rfl)

theorem prefixCI_append_eq (kw p x y : Str) (h : kw.length ≤ p.length) :
    prefixCI kw (p ++ x) = prefixCI kw (p ++ y) := by
  rw [prefixCI, prefixCI, List.take_append_of_le_length h,
    List.take_append_of_le_length h]

/-- The interpose lemma: if the keyword pattern has no match at the head of
`p ++ h :: tt` and `h` is a value character (as every match of a sensitive
pattern starts with one), then it has no match at the head of
`p ++ '[' :: u` either — for any `u`.  This is what makes replacing a match
by `[REDACTED]` safe for the keyword patterns. -/
theorem kwMatches_interpose (kw p tt u : Str) (h : Char)
    (hkw : ∀ c ∈ kw, Char.toUpper c ≠ '[')
    (hval : isValueChar h = true)
    (hm : ¬ KwMatches kw (p ++ h :: tt)) :
    ¬ KwMatches kw (p ++ '[' :: u) := by
  obtain ⟨hws, hqt⟩ := isValueChar_spec h hval
  rintro ⟨hpre, c, r1, hdrop, hc, q, r3, hdw, hbranch⟩
  apply hm
  have hlen : kw.length ≤ p.length := prefixCI_le_length kw p u hkw hpre
  have hpre1 : prefixCI kw (p ++ h :: tt) = true := by
    rw [prefixCI_append_eq kw p (h :: tt) ('[' :: u) hlen]
    exact hpre
  rw [List.drop_append_of_le_length hlen] at hdrop
  cases hp' : p.drop kw.length with
  | nil =>
    rw [hp', List.nil_append] at hdrop
    obtain ⟨rfl, rfl⟩ := (List.cons.injEq _ _ _ _).mp hdrop
    rcases hc with hc | hc <;> exact absurd hc (by decide)
  | cons c₀ p'' =>
    rw [hp', List.cons_append] at hdrop
    obtain ⟨rfl, rfl⟩ := (List.cons.injEq _ _ _ _).mp hdrop
    refine ⟨hpre1, c₀, p'' ++ h :: tt, ?_, hc, ?_⟩
    · rw [List.drop_append_of_le_length hlen, hp', List.cons_append]
    · cases hd : p''.dropWhile isWsChar with
      | nil =>
        have hall : ∀ x ∈ p'', isWsChar x = true := List.dropWhile_eq_nil_iff.mp hd
        refine ⟨h, tt, ?_, Or.inl hqt⟩
        rw [dropWhile_append_all isWsChar p'' _ hall, List.dropWhile_cons,
          hws]
        rfl
      | cons d p₃ =>
        have hdne : p''.dropWhile isWsChar ≠ [] := by rw [hd]; simp
        have h2 : (p'' ++ h :: tt).dropWhile isWsChar = d :: (p₃ ++ h :: tt) := by
          rw [dropWhile_append_left isWsChar p'' _ hdne, hd]
          rfl
        have h3 : q :: r3 = d :: (p₃ ++ '[' :: u) := by
          rw [← hdw, dropWhile_append_left isWsChar p'' _ hdne, hd]
          rfl
        obtain ⟨rfl, rfl⟩ := (List.cons.injEq _ _ _ _).mp h3
        refine ⟨q, p₃ ++ h :: tt, h2, ?_⟩
        rcases hbranch with hq | ⟨e, r4, he, hev⟩
        · exact Or.inl hq
        · cases hp₃ : p₃ with
          | nil =>
            exact Or.inr ⟨h, tt, rfl, hval⟩
          | cons e₀ p₄ =>
            rw [hp₃, List.cons_append] at he
            obtain ⟨rfl, -⟩ := (List.cons.injEq _ _ _ _).mp he
            exact Or.inr ⟨e₀, p₄ ++ h :: tt, rfl, hev⟩

theorem replaceScanF_congr (f₁ : Nat) : ∀ (f₂ : Nat) (m : Str → Option Nat)
    (s : Str), s.length < f₁ → s.length < f₂ →
    replaceScanF f₁ m s = replaceScanF f₂ m s := by
  induction f₁ with
  | zero => intro f₂ m s h1 _; omega
  | succ f ih =>
    intro f₂ m s h1 h2
    cases f₂ with
    | zero => omega
    | succ f₂' =>
      cases s with
      | nil => rfl
      | cons c rest =>
        simp only [List.length_cons] at h1 h2
        simp only [replaceScanF]
        cases hm : m (c :: rest) with
        | none =>
          exact congrArg (c :: ·) (ih f₂' m rest (by omega) (by omega))
        | some n =>
          cases n with
          | zero =>
            exact congrArg (c :: ·) (ih f₂' m rest (by omega) (by omega))
          | succ n' =>
            have hd := List.length_drop n' rest
            exact congrArg (REDACTED ++ ·)
              (ih f₂' m (rest.drop n') (by omega) (by omega))

theorem replaceScan_cons_match (m : Str → Option Nat) (c : Char) (rest : Str)
    (n : Nat) (hm : m (c :: rest) = some (n + 1)) :
    replaceScan m (c :: rest) = REDACTED ++ replaceScan m (rest.drop n) := by
  have h1 : replaceScan m (c :: rest) =
      replaceScanF (rest.length + 2) m (c :: rest) := rfl
  rw [h1]
  simp only [replaceScanF, hm]
  have hd := List.length_drop n rest
  exact congrArg (REDACTED ++ ·)
    (replaceScanF_congr _ _ m (rest.drop n) (by omega) (by omega))

theorem replaceScan_cons_nomatch (m : Str → Option Nat) (c : Char) (rest : Str)
    (hm : m (c :: rest) = none ∨ m (c :: rest) = some 0) :
    replaceScan m (c :: rest) = c :: replaceScan m rest := by
  have h1 : replaceScan m (c :: rest) =
      replaceScanF (rest.length + 2) m (c :: rest) := rfl
  rw [h1]
  rcases hm with hm | hm <;>
    simp only [replaceScanF, hm] <;>
      exact congrArg (c :: ·)
        (replaceScanF_congr _ _ m rest (by omega) (by omega))

/-- `m` matches at no suffix of `s` (so a replace with a global regex is the
identity on `s`). -/
def NoMatchAll (m : Str → Option Nat) (s : Str) : Prop :=
  ∀ t, t <:+ s → m t = none

/-- Every match of `m` is nonempty and starts with a value character.  All
six sensitive patterns have this property (their matches start with a letter
of the keyword or of `mysql`). -/
def MatchHeads (m : Str → Option Nat) : Prop :=
  ∀ s n, m s = some n → 1 ≤ n ∧ ∃ h tt, s = h :: tt ∧ isValueChar h = true

theorem replaceScan_eq_self (m : Str → Option Nat) (s : Str)
    (h : NoMatchAll m s) : replaceScan m s = s := by
  induction s with
  | nil => rfl
  | cons c rest ih =>
    rw [replaceScan_cons_nomatch m c rest (Or.inl (h _ (List.suffix_refl _)))]
    rw [ih (fun t ht => h t (ht.trans (List.suffix_cons c rest)))]

theorem scan_preserve (kw : Str) (m₂ : Str → Option Nat) (hm₂ : MatchHeads m₂)
    (hkw : ∀ c ∈ kw, Char.toUpper c ≠ '[') :
    ∀ (t p : Str), kwMatchLen kw (p ++ t) = none →
      kwMatchLen kw (p ++ replaceScan m₂ t) = none := by
  have H : ∀ N, ∀ t : Str, t.length ≤ N → ∀ p,
      kwMatchLen kw (p ++ t) = none →
      kwMatchLen kw (p ++ replaceScan m₂ t) = none := by
    intro N
    induction N with
    | zero =>
      intro t hlen p hnone
      have ht : t = [] := by cases t <;> simp_all
      subst ht
      exact hnone
    | succ N ihN =>
      intro t hlen p hnone
      cases t with
      | nil => exact hnone
      | cons c rest =>
        simp only [List.length_cons] at hlen
        cases hm : m₂ (c :: rest) with
        | none =>
          rw [replaceScan_cons_nomatch m₂ c rest (Or.inl hm)]
          have h1 : kwMatchLen kw ((p ++ [c]) ++ rest) = none := by
            rw [List.append_assoc, List.singleton_append]
            exact hnone
          have h2 := ihN rest (by omega) (p ++ [c]) h1
          rw [List.append_assoc, List.singleton_append] at h2
          exact h2
        | some n =>
          obtain ⟨hn1, h, tt, heq, hval⟩ := hm₂ _ _ hm
          cases n with
          | zero => omega
          | succ n' =>
            rw [replaceScan_cons_match m₂ c rest n' hm]
            obtain ⟨rfl, rfl⟩ := (List.cons.injEq _ _ _ _).mp heq
            rw [show REDACTED ++ replaceScan m₂ (rest.drop n') =
              '[' :: (strToL "REDACTED]" ++ replaceScan m₂ (rest.drop n'))
              from rfl]
            rw [kwMatchLen_none_iff]
            exact kwMatches_interpose kw p rest _ c hkw hval
              ((kwMatchLen_none_iff kw (p ++ c :: rest)).mp hnone)
  exact fun t p hnone => H t.length t le_rfl p hnone

theorem scan_noMatchAll (kw : Str) (m₂ : Str → Option Nat)
    (hm₂ : MatchHeads m₂)
    (hkw : ∀ c ∈ kw, Char.toUpper c ≠ '[')
    (hkwnil : kwMatchLen kw [] = none)
    (hred : ∀ r u, r <:+ REDACTED → r ≠ [] → kwMatchLen kw (r ++ u) = none) :
    ∀ s : Str, (∀ t, t <:+ s → m₂ t = none → kwMatchLen kw t = none) →
      NoMatchAll (kwMatchLen kw) (replaceScan m₂ s) := by
  have H : ∀ N, ∀ s : Str, s.length ≤ N →
      (∀ t, t <:+ s → m₂ t = none → kwMatchLen kw t = none) →
      NoMatchAll (kwMatchLen kw) (replaceScan m₂ s) := by
    intro N
    induction N with
    | zero =>
      intro s hlen _
      have hs : s = [] := by cases s <;> simp_all
      subst hs
      intro t ht
      rw [List.suffix_nil.mp ht]
      exact hkwnil
    | succ N ihN =>
      intro s hlen hyp
      cases s with
      | nil =>
        intro t ht
        rw [List.suffix_nil.mp ht]
        exact hkwnil
      | cons c rest =>
        simp only [List.length_cons] at hlen
        cases hm : m₂ (c :: rest) with
        | none =>
          rw [replaceScan_cons_nomatch m₂ c rest (Or.inl hm)]
          intro t ht
          rcases List.suffix_cons_iff.mp ht with rfl | ht'
          · have h0 : kwMatchLen kw (c :: rest) = none :=
              hyp (c :: rest) (List.suffix_refl _) hm
            have h1 := scan_preserve kw m₂ hm₂ hkw rest [c]
              (by rw [List.singleton_append]; exact h0)
            rw [List.singleton_append] at h1
            exact h1
          · exact ihN rest (by omega)
              (fun t' hs hm' => hyp t' (hs.trans (List.suffix_cons c rest)) hm')
              t ht'
        | some n =>
          obtain ⟨hn1, h, tt, heq, hval⟩ := hm₂ _ _ hm
          cases n with
          | zero => omega
          | succ n' =>
            rw [replaceScan_cons_match m₂ c rest n' hm]
            intro t ht
            rcases suffix_append_split ht with ht' | ⟨r, hrsuf, hrne, rfl⟩
            · have hd := List.length_drop n' rest
              exact ihN (rest.drop n') (by omega)
                (fun t' hs hm' => hyp t'
                  (hs.trans ((List.drop_suffix n' rest).trans
                    (List.suffix_cons c rest))) hm')
                t ht'
            · exact hred r _ hrsuf hrne
  exact fun s hyp => H s.length s le_rfl hyp

theorem prefixCI_false_mismatch (kw r u : Str) (i : Nat)
    (h1 : i < kw.length) (h2 : i < r.length)
    (hmm : (upperL r)[i]? ≠ (upperL kw)[i]?) :
    prefixCI kw (r ++ u) = false := by
  by_contra hcon
  have hp : prefixCI kw (r ++ u) = true := by simpa using hcon
  rw [prefixCI_iff] at hp
  apply hmm
  have h3 : (upperL ((r ++ u).take kw.length))[i]? = (upperL kw)[i]? := by
    rw [hp]
  rw [upperL, List.getElem?_map, List.getElem?_take, if_pos h1,
    List.getElem?_append_left h2] at h3
  rw [upperL, List.getElem?_map]
  exact h3

theorem kwMatchLen_some_ge (kw s : Str) (n : Nat)
    (h : kwMatchLen kw s = some n) : kw.length + 1 ≤ n := by
  simp only [kwMatchLen] at h
  repeat' split at h
  all_goals first
    | (have h2 := Option.some.inj h; omega)
    | cases h

theorem mysqlMatchLen_some (s : Str) (n : Nat) (h : mysqlMatchLen s = some n) :
    1 ≤ n ∧ prefixCI (strToL "mysql://") s = true := by
  constructor
  · simp only [mysqlMatchLen] at h
    repeat' split at h
    all_goals first
      | (have h2 := Option.some.inj h; omega)
      | cases h
  · by_contra hp
    rw [mysqlMatchLen, if_neg (by simpa using hp)] at h
    cases h

theorem prefixCI_head (k0 : Char) (kwr s : Str)
    (h : prefixCI (k0 :: kwr) s = true) :
    ∃ hd tl, s = hd :: tl ∧ Char.toUpper hd = Char.toUpper k0 := by
  rw [prefixCI_iff] at h
  cases s with
  | nil =>
    exfalso
    have := congrArg List.length h
    simp [upperL] at this
  | cons hd tl =>
    refine ⟨hd, tl, rfl, ?_⟩
    have h0 : (upperL ((hd :: tl).take (k0 :: kwr).length))[0]? =
        (upperL (k0 :: kwr))[0]? := by rw [h]
    simp only [List.length_cons, List.take_succ_cons, upperL, List.map_cons,
      List.getElem?_cons_zero] at h0
    exact Option.some.inj h0

theorem isValueChar_of_toUpper_mem (h : Char)
    (hup : Char.toUpper h ∈ (['P', 'S', 'T', 'K', 'M'] : List Char)) :
    isValueChar h = true := by
  by_contra hv
  rw [Bool.not_eq_true, isValueChar] at hv
  have hv' : (decide (h = squote) || decide (h = dquote) || isWsChar h) = true := by
    cases hb : (decide (h = squote) || decide (h = dquote) || isWsChar h) with
    | false => rw [hb] at hv; cases hv
    | true => rfl
  simp only [Bool.or_eq_true, decide_eq_true_eq] at hv'
  rcases hv' with (rfl | rfl) | h1
  · exact absurd hup (by decide)
  · exact absurd hup (by decide)
  · rw [isWsChar] at h1
    simp only [Bool.or_eq_true, decide_eq_true_eq] at h1
    rcases h1 with ((((rfl | rfl) | rfl) | rfl) | rfl) | rfl <;>
      exact absurd hup (by decide)

theorem matchHeads_kwMatchLen (k0 : Char) (kwr : Str)
    (hk0 : Char.toUpper k0 ∈ (['P', 'S', 'T', 'K', 'M'] : List Char)) :
    MatchHeads (kwMatchLen (k0 :: kwr)) := by
  intro s n hsome
  constructor
  · have := kwMatchLen_some_ge (k0 :: kwr) s n hsome
    omega
  · have hpre : prefixCI (k0 :: kwr) s = true := by
      by_contra hp
      rw [kwMatchLen_none_of_prefix_false _ _ (by simpa using hp)] at hsome
      cases hsome
    obtain ⟨hd, tl, rfl, hup⟩ := prefixCI_head k0 kwr s hpre
    exact ⟨hd, tl, rfl, isValueChar_of_toUpper_mem hd (by rw [hup]; exact hk0)⟩

theorem matchHeads_mysqlMatchLen : MatchHeads mysqlMatchLen := by
  intro s n hsome
  obtain ⟨hn, hpre⟩ := mysqlMatchLen_some s n hsome
  refine ⟨hn, ?_⟩
  rw [show strToL "mysql://" = 'm' :: strToL "ysql://" from rfl] at hpre
  obtain ⟨hd, tl, rfl, hup⟩ := prefixCI_head 'm' (strToL "ysql://") s hpre
  refine ⟨hd, tl, rfl, isValueChar_of_toUpper_mem hd ?_⟩
  rw [hup]
  decide

/-- The five credential keyword strings, in pattern order. -/
def KW_LIST : List Str :=
  [strToL "password", strToL "pwd", strToL "secret", strToL "token",
   strToL "key"]

theorem kw_red_safe :
    ∀ kw ∈ KW_LIST, ∀ r u : Str, r <:+ REDACTED → r ≠ [] →
      kwMatchLen kw (r ++ u) = none := by
  intro kw hkw r u hsuf hne
  have hr : r ∈ REDACTED.tails := (List.mem_tails r REDACTED).mpr hsuf
  have htails : REDACTED.tails =
      [strToL "[REDACTED]", strToL "REDACTED]", strToL "EDACTED]",
       strToL "DACTED]", strToL "ACTED]", strToL "CTED]", strToL "TED]",
       strToL "ED]", strToL "D]", strToL "]", []] := by decide
  rw [htails] at hr
  simp only [List.mem_cons, List.not_mem_nil, or_false] at hr
  simp only [KW_LIST, List.mem_cons, List.not_mem_nil, or_false] at hkw
  rcases hkw with rfl | rfl | rfl | rfl | rfl <;>
    rcases hr with rfl | rfl | rfl | rfl | rfl | rfl | rfl | rfl | rfl | rfl | rfl <;>
      first
        | exact absurd rfl hne
        | exact kwMatchLen_none_of_prefix_false _ _
            (prefixCI_false_mismatch _ _ u 0 (by decide) (by decide) (by decide))
        | exact kwMatchLen_none_of_prefix_false _ _
            (prefixCI_false_mismatch _ _ u 1 (by decide) (by decide) (by decide))

/-- Sequential application of a list of pattern scans, as `sanitizeMessage`
does with `SENSITIVE_MATCHERS`. -/
def applyScans (ms : List (Str → Option Nat)) (s : Str) : Str :=
  ms.foldl (fun acc m => replaceScan m acc) s

theorem noMatchAll_applyScans (kw : Str)
    (hbr : ∀ c ∈ kw, Char.toUpper c ≠ '[')
    (hnil : kwMatchLen kw [] = none)
    (hred : ∀ r u, r <:+ REDACTED → r ≠ [] → kwMatchLen kw (r ++ u) = none)
    (ms : List (Str → Option Nat)) (hms : ∀ m ∈ ms, MatchHeads m) :
    ∀ s, NoMatchAll (kwMatchLen kw) s →
      NoMatchAll (kwMatchLen kw) (applyScans ms s) := by
  induction ms with
  | nil => intro s h; exact h
  | cons m ms ih =>
    intro s h
    exact ih (fun m' hm' => hms m' (by simp [hm'])) _
      (scan_noMatchAll kw m (hms m (by simp)) hbr hnil hred s
        (fun t hs _ => h t hs))

theorem applyScans_eq_self (ms : List (Str → Option Nat)) (s : Str)
    (h : ∀ m ∈ ms, NoMatchAll m s) : applyScans ms s = s := by
  induction ms with
  | nil => rfl
  | cons m ms ih =>
    show applyScans ms (replaceScan m s) = s
    rw [replaceScan_eq_self m s (h m (by simp))]
    exact ih (fun m' hm' => h m' (by simp [hm']))

theorem matchHeads_password : MatchHeads (kwMatchLen (strToL "password")) := by
  have h := matchHeads_kwMatchLen 'p' (strToL "assword") (by decide)
  rwa [show ('p' :: strToL "assword") = strToL "password" from rfl] at h

theorem matchHeads_pwd : MatchHeads (kwMatchLen (strToL "pwd")) := by
  have h := matchHeads_kwMatchLen 'p' (strToL "wd") (by decide)
  rwa [show ('p' :: strToL "wd") = strToL "pwd" from rfl] at h

theorem matchHeads_secret : MatchHeads (kwMatchLen (strToL "secret")) := by
  have h := matchHeads_kwMatchLen 's' (strToL "ecret") (by decide)
  rwa [show ('s' :: strToL "ecret") = strToL "secret" from rfl] at h

theorem matchHeads_token : MatchHeads (kwMatchLen (strToL "token")) := by
  have h := matchHeads_kwMatchLen 't' (strToL "oken") (by decide)
  rwa [show ('t' :: strToL "oken") = strToL "token" from rfl] at h

theorem matchHeads_key : MatchHeads (kwMatchLen (strToL "key")) := by
  have h := matchHeads_kwMatchLen 'k' (strToL "ey") (by decide)
  rwa [show ('k' :: strToL "ey") = strToL "key" from rfl] at h

theorem matchHeads_all : ∀ m ∈ SENSITIVE_MATCHERS, MatchHeads m := by
  intro m hm
  simp only [SENSITIVE_MATCHERS, List.mem_cons, List.not_mem_nil,
    or_false] at hm
  rcases hm with rfl | rfl | rfl | rfl | rfl | rfl
  · exact matchHeads_password
  · exact matchHeads_pwd
  · exact matchHeads_secret
  · exact matchHeads_token
  · exact matchHeads_key
  · exact matchHeads_mysqlMatchLen

theorem noMatchAll_sanitize_kw (x : Str) :
    ∀ kw ∈ KW_LIST, NoMatchAll (kwMatchLen kw) (sanitizeMessage x) := by
  intro kw hkw
  have hbr : ∀ c ∈ kw, Char.toUpper c ≠ '[' := by
    simp only [KW_LIST, List.mem_cons, List.not_mem_nil, or_false] at hkw
    rcases hkw with rfl | rfl | rfl | rfl | rfl <;> decide
  have hnil : kwMatchLen kw [] = none := by
    simp only [KW_LIST, List.mem_cons, List.not_mem_nil, or_false] at hkw
    rcases hkw with rfl | rfl | rfl | rfl | rfl <;> decide
  have hred := kw_red_safe kw hkw
  have hself : ∀ s, NoMatchAll (kwMatchLen kw)
      (replaceScan (kwMatchLen kw) s) := by
    intro s
    refine scan_noMatchAll kw (kwMatchLen kw) ?_ hbr hnil hred s
      (fun t _ hm => hm)
    simp only [KW_LIST, List.mem_cons, List.not_mem_nil, or_false] at hkw
    rcases hkw with rfl | rfl | rfl | rfl | rfl
    · exact matchHeads_password
    · exact matchHeads_pwd
    · exact matchHeads_secret
    · exact matchHeads_token
    · exact matchHeads_key
  simp only [KW_LIST, List.mem_cons, List.not_mem_nil, or_false] at hkw
  rcases hkw with rfl | rfl | rfl | rfl | rfl
  · -- password is pass 1; the remaining five scans preserve no-match
    have e : sanitizeMessage x = applyScans
        [kwMatchLen (strToL "pwd"), kwMatchLen (strToL "secret"),
         kwMatchLen (strToL "token"), kwMatchLen (strToL "key"),
         mysqlMatchLen]
        (replaceScan (kwMatchLen (strToL "password")) x) := rfl
    rw [e]
    refine noMatchAll_applyScans _ hbr hnil hred _ ?_ _ (hself x)
    intro m hm
    exact matchHeads_all m (by
      simp only [List.mem_cons, List.not_mem_nil, or_false] at hm
      rcases hm with rfl | rfl | rfl | rfl | rfl <;>
        simp [SENSITIVE_MATCHERS])
  · have e : sanitizeMessage x = applyScans
        [kwMatchLen (strToL "secret"), kwMatchLen (strToL "token"),
         kwMatchLen (strToL "key"), mysqlMatchLen]
        (replaceScan (kwMatchLen (strToL "pwd"))
          (replaceScan (kwMatchLen (strToL "password")) x)) := rfl
    rw [e]
    refine noMatchAll_applyScans _ hbr hnil hred _ ?_ _ (hself _)
    intro m hm
    exact matchHeads_all m (by
      simp only [List.mem_cons, List.not_mem_nil, or_false] at hm
      rcases hm with rfl | rfl | rfl | rfl <;>
        simp [SENSITIVE_MATCHERS])
  · have e : sanitizeMessage x = applyScans
        [kwMatchLen (strToL "token"), kwMatchLen (strToL "key"),
         mysqlMatchLen]
        (replaceScan (kwMatchLen (strToL "secret"))
          (replaceScan (kwMatchLen (strToL "pwd"))
            (replaceScan (kwMatchLen (strToL "password")) x))) := rfl
    rw [e]
    refine noMatchAll_applyScans _ hbr hnil hred _ ?_ _ (hself _)
    intro m hm
    exact matchHeads_all m (by
      simp only [List.mem_cons, List.not_mem_nil, or_false] at hm
      rcases hm with rfl | rfl | rfl <;>
        simp [SENSITIVE_MATCHERS])
  · have e : sanitizeMessage x = applyScans
        [kwMatchLen (strToL "key"), mysqlMatchLen]
        (replaceScan (kwMatchLen (strToL "token"))
          (replaceScan (kwMatchLen (strToL "secret"))
            (replaceScan (kwMatchLen (strToL "pwd"))
              (replaceScan (kwMatchLen (strToL "password")) x)))) := rfl
    rw [e]
    refine noMatchAll_applyScans _ hbr hnil hred _ ?_ _ (hself _)
    intro m hm
    exact matchHeads_all m (by
      simp only [List.mem_cons, List.not_mem_nil, or_false] at hm
      rcases hm with rfl | rfl <;>
        simp [SENSITIVE_MATCHERS])
  · have e : sanitizeMessage x = applyScans [mysqlMatchLen]
        (replaceScan (kwMatchLen (strToL "key"))
          (replaceScan (kwMatchLen (strToL "token"))
            (replaceScan (kwMatchLen (strToL "secret"))
              (replaceScan (kwMatchLen (strToL "pwd"))
                (replaceScan (kwMatchLen (strToL "password")) x))))) := rfl
    rw [e]
    refine noMatchAll_applyScans _ hbr hnil hred _ ?_ _ (hself _)
    intro m hm
    exact matchHeads_all m (by
      simp only [List.mem_cons, List.not_mem_nil, or_false] at hm
      rcases hm with rfl
      simp [SENSITIVE_MATCHERS])

/-- Claim C4 (amended): after one sanitization pass, none of the five
credential keyword patterns has any match left anywhere in the result; and
whenever the connection-URL pattern also has no match in the sanitized
message, a second sanitization changes nothing.  Full unconditional
idempotence fails (see the counterexample): the URL pattern's `[^:]+` can
span a `[REDACTED]` marker and create a new match. -/
theorem sanitizeMessage_spec (x : Str) :
    (∀ kw ∈ KW_LIST, ∀ t ∈ (sanitizeMessage x).tails, kwMatchLen kw t = none) ∧
    ((∀ t ∈ (sanitizeMessage x).tails, mysqlMatchLen t = none) →
      sanitizeMessage (sanitizeMessage x) = sanitizeMessage x) := by
  constructor
  · intro kw hkw t ht
    exact noMatchAll_sanitize_kw x kw hkw t ((List.mem_tails t _).mp ht)
  · intro hyp
    have hnm : ∀ m ∈ SENSITIVE_MATCHERS, NoMatchAll m (sanitizeMessage x) := by
      intro m hm
      simp only [SENSITIVE_MATCHERS, List.mem_cons, List.not_mem_nil,
        or_false] at hm
      rcases hm with rfl | rfl | rfl | rfl | rfl | rfl
      · exact noMatchAll_sanitize_kw x _ (by simp [KW_LIST])
      · exact noMatchAll_sanitize_kw x _ (by simp [KW_LIST])
      · exact noMatchAll_sanitize_kw x _ (by simp [KW_LIST])
      · exact noMatchAll_sanitize_kw x _ (by simp [KW_LIST])
      · exact noMatchAll_sanitize_kw x _ (by simp [KW_LIST])
      · exact fun t ht => hyp t ((List.mem_tails t _).mpr ht)
    exact applyScans_eq_self SENSITIVE_MATCHERS (sanitizeMessage x) hnm

/-- Witness for `sanitizeMessage_spec`: for a concrete message, both the
keyword-pattern hypothesis-free part and the conditional idempotence with
its hypothesis discharged by evaluation. -/
theorem sanitizeMessage_spec_witness :
    (∀ t ∈ (sanitizeMessage (strToL "password=abc oops")).tails,
      mysqlMatchLen t = none) ∧
    sanitizeMessage (sanitizeMessage (strToL "password=abc oops")) =
      sanitizeMessage (strToL "password=abc oops") ∧
    (strToL "password" ∈ KW_LIST ∧
      ∀ t ∈ (sanitizeMessage (strToL "password=abc oops")).tails,
        kwMatchLen (strToL "password") t = none) :=
  ⟨by decide,
   (sanitizeMessage_spec (strToL "password=abc oops")).2 (by decide),
   ⟨by decide,
    (sanitizeMessage_spec (strToL "password=abc oops")).1
      (strToL "password") (by decide)⟩⟩

/-- Claim C4 as frozen is false: the sanitizer is not idempotent.  For this
input the first pass redacts an inner URL (whose `[^:]+` part swallows a
newline), and the second pass finds a fresh URL match spanning the
`[REDACTED]` marker. -/
theorem sanitizeMessage_claim_counterexample :
    sanitizeMessage (strToL "mysql://amysql://c\nd:e@ff\nz:w@hh") =
      strToL "mysql://a[REDACTED]\nz:w@hh" ∧
    sanitizeMessage (sanitizeMessage
        (strToL "mysql://amysql://c\nd:e@ff\nz:w@hh")) =
      strToL "[REDACTED]" ∧
    sanitizeMessage (sanitizeMessage
        (strToL "mysql://amysql://c\nd:e@ff\nz:w@hh")) ≠
      sanitizeMessage (strToL "mysql://amysql://c\nd:e@ff\nz:w@hh") := by
  refine ⟨by decide, by decide, by decide⟩

end MySqlMcp
